import Mathlib

/-!
Verification development for the statistics core of the voynich-decoder
repository: distribution metrics, Jensen-Shannon divergence, n-gram
extraction, Zipf-slope fitting, JSONL reading and windowed temporal
analysis, shallowly embedded from the Python sources
(`src/compare/compare_corpora.py`, `src/compare/compare_languages.py`,
`src/analytics/stats.py`, `src/analysis/report_metrics.py`,
`src/analysis/temporal_evolution.py`).

Python floats are modelled as real numbers, Python `int` as `Int`/`Nat`,
and Python dicts (including `collections.Counter`) as ordered association
lists with unique keys; `None`-able results are modelled with `Option`,
raising code with `Except`.
-/

/-- Model of a Python dict: an ordered association list from string keys to
values.  Real dicts never hold duplicate keys; lemmas that need that
invariant take a `Nodup` hypothesis on the key list. -/
abbrev PyDict (α : Type) : Type := List (String × α)

/-- Model of `d.get(k, default)`: the value stored at the first (and in a
real dict, only) occurrence of key `k`, or `default` if `k` is absent. -/
def pyGet {α : Type} (d : PyDict α) (k : String) (default : α) : α :=
  match d.find? (fun kv => kv.1 == k) with
  | some kv => kv.2
  | none => default

/-- Key list of a dict, in storage order (Python `d.keys()`). -/
def keyList {α : Type} (d : PyDict α) : List String :=
  d.map Prod.fst

/-- Lower or upper bound of a Python slice index: negative indices count
from the end (clamped at 0), nonnegative ones are clamped at the length. -/
def pyBound (len : ℕ) (j : ℤ) : ℕ :=
  if j < 0 then (j + len).toNat else min j.toNat len

/-- Model of the Python slice `xs[a:b]` (step 1). -/
def pySlice {α : Type} (xs : List α) (a b : ℤ) : List α :=
  (xs.drop (pyBound xs.length a)).take (pyBound xs.length b - pyBound xs.length a)

/-- Fields of a parsed JSONL record that the line readers inspect. -/
structure JsonRecord where
  text : Option String
  tokens : Option (List String)

/-- Physical input line as the readers see it: whether its stripped form
is empty, and the outcome of `json.loads` (`none` models a line that is
not a valid structured record, where `json.loads` raises). -/
structure RawLine where
  blank : Bool
  parsed : Option JsonRecord

/-- Model of `obj.get('text') or ' '.join(obj.get('tokens', []))`: the
`text` field when present and truthy (nonempty), otherwise the
space-joined `tokens` field with default `[]`. -/
def extractText (o : JsonRecord) : String :=
  match o.text with
  | some t => if t ≠ "" then t else " ".intercalate (o.tokens.getD [])
  | none => " ".intercalate (o.tokens.getD [])

/-- Concrete malformed input line: nonblank, not a valid record. -/
def malformedLine : RawLine := ⟨false, none⟩

/-- Statistics record appended per adjacent-window pair by
`detect_vocabulary_shifts`. -/
structure VocabShift where
  window_start : String
  window_end : String
  jaccard_similarity : ℝ
  jsd_distance : ℝ
  vocab_size_1 : ℕ
  vocab_size_2 : ℕ
  new_tokens : ℕ
  disappeared_tokens : ℕ

/-- Per-folio row of `folio_stats` as consumed by
`detect_vocabulary_shifts`: the folio identifier and its token list. -/
structure FolioStat where
  folio : String
  tokens : List String

/-- Divergence Result record assembled per reference corpus by `compare`
in `compare_corpora.py` (embedding similarity is the optional opaque
enrichment and is absent when the embedding collaborator is missing). -/
structure DivergenceResult where
  corpus : String
  jsd_unigram : ℝ
  jsd_bigram : ℝ
  embedding_similarity : Option ℝ

namespace CompareCorpora

/-- Model of `set(p.keys()) | set(q.keys())` from `js_divergence` in
`compare_corpora.py`: the union of the two key sets.  Set iteration order
is unspecified in Python and immaterial to every sum below; the union is
materialised as a deduplicated list. -/
def unionKeys {α : Type} (p q : PyDict α) : List String :=
  (keyList p ++ keyList q).dedup

/-- Model of the mixture dict `m` built by `js_divergence`:
`m[k] = 0.5 * (p.get(k, 0.0) + q.get(k, 0.0))` for every key of the union. -/
noncomputable def mixDict (p q : PyDict ℝ) : PyDict ℝ :=
  (unionKeys p q).map (fun k => (k, 0.5 * (pyGet p k 0 + pyGet q k 0)))

/-- Model of the inner helper `kl(a, b)` of `js_divergence` in
`compare_corpora.py`: keys with value `0` are skipped; a zero denominator
is replaced by the fixed epsilon `1e-12`; all logs are base 2. -/
noncomputable def kl (a b : PyDict ℝ) : ℝ :=
  (a.map (fun kv =>
    if kv.2 = 0 then 0
    else
      if pyGet b kv.1 0 = 0 then kv.2 * Real.logb 2 (kv.2 / (1e-12 : ℝ))
      else kv.2 * Real.logb 2 (kv.2 / pyGet b kv.1 0))).sum

/-- Model of `js_divergence(p, q)` from `compare_corpora.py`:
`0.5 * (kl(p, m) + kl(q, m))` over the mixture `m`. -/
noncomputable def js_divergence (p q : PyDict ℝ) : ℝ :=
  0.5 * (kl p (mixDict p q) + kl q (mixDict p q))

/-- Variant of the `kl` helper with the zero-denominator fallback removed:
every non-skipped term divides by the mixture value directly. -/
noncomputable def klNoEps (a b : PyDict ℝ) : ℝ :=
  (a.map (fun kv =>
    if kv.2 = 0 then 0
    else kv.2 * Real.logb 2 (kv.2 / pyGet b kv.1 0))).sum

/-- Model of `ngrams(tokens, n)` from `compare/compare_corpora.py`: the
same comprehension but without the `n <= 0` guard, so nonpositive orders
still produce `len(tokens) - n + 1` slice tuples. -/
def ngrams (tokens : List String) (n : ℤ) : List (List String) :=
  (List.range (((tokens.length : ℤ) - n + 1).toNat)).map
    (fun (i : ℕ) => pySlice tokens (i : ℤ) ((i : ℤ) + n))

/-- Model of `read_voynich_lines` from `compare_corpora.py`: blank lines
are skipped, but `json.loads` is not guarded, so a line that fails to
parse raises and aborts the whole read. -/
def read_voynich_lines : List RawLine → Except Unit (List String)
  | [] => .ok []
  | ln :: rest =>
    if ln.blank then read_voynich_lines rest
    else
      match ln.parsed with
      | none => .error ()
      | some o => (read_voynich_lines rest).map
          (fun ls => if extractText o = "" then ls else extractText o :: ls)

/-- Distinct elements of a list in first-seen order, matching the
iteration order of the Python `Counter` built from the list. -/
def pyDedup : List String → List String
  | [] => []
  | x :: xs => x :: pyDedup (xs.filter (fun y => y ≠ x))
termination_by l => l.length
decreasing_by
  simp only [List.length_cons]
  exact Nat.lt_succ_of_le (List.length_filter_le _ _)

/-- Python `Counter(tokens)`: one entry per distinct token in first-seen
order, carrying its number of occurrences. -/
def counterOf (tokens : List String) : PyDict ℕ :=
  (pyDedup tokens).map (fun t => (t, tokens.count t))

/-- Model of `counter_to_prob` from `compare_corpora.py`: the empty dict
when the total count is zero, else each count divided by the total. -/
noncomputable def counter_to_prob (c : PyDict ℕ) : PyDict ℝ :=
  if (c.map (fun kv => kv.2)).sum = 0 then []
  else c.map (fun kv =>
    (kv.1, (kv.2 : ℝ) / (((c.map (fun kv => kv.2)).sum : ℕ) : ℝ)))

/-- Divergence Result for one reference corpus, as assembled in the
`compare` loop: unigram and bigram JSD against the manuscript
distributions, no embedding similarity. -/
noncomputable def corpus_result (p_v_uni p_v_bi : PyDict ℝ)
    (name : String) (c_tokens : List String) : DivergenceResult :=
  { corpus := name
    jsd_unigram := js_divergence p_v_uni (counter_to_prob (counterOf c_tokens))
    jsd_bigram := js_divergence p_v_bi (counter_to_prob (counterOf
      ((ngrams c_tokens 2).map (String.intercalate " "))))
    embedding_similarity := none }

/-- Result list of one comparison run, in reference-corpus order. -/
noncomputable def compare_results (p_v_uni p_v_bi : PyDict ℝ)
    (corpora : List (String × List String)) : List DivergenceResult :=
  corpora.map (fun nc => corpus_result p_v_uni p_v_bi nc.1 nc.2)

/-- Ranking emitted by `compare` into `summary.md`:
`sorted(results, key=jsd_unigram)` (stable sort; the `None` guard in the
key is inert because `js_divergence` always returns a float). -/
noncomputable def rank_results (rs : List DivergenceResult) : List DivergenceResult :=
  rs.mergeSort (fun a b => decide (a.jsd_unigram ≤ b.jsd_unigram))

/-- Ranked Divergence Result list of one full comparison run. -/
noncomputable def compare_ranked (p_v_uni p_v_bi : PyDict ℝ)
    (corpora : List (String × List String)) : List DivergenceResult :=
  rank_results (compare_results p_v_uni p_v_bi corpora)

end CompareCorpora

namespace CompareLanguages

/-- Model of `js_divergence(p, q)` from `compare_languages.py`: the
distributions are laid out as vectors over the key union, the mixture is
the pointwise average `m = 0.5 * (p_vec + q_vec)`, and each KL sum is
masked to the entries where the first argument is strictly positive
(`mask = (a > 0)`), base-2 logs. -/
noncomputable def js_divergence (p q : PyDict ℝ) : ℝ :=
  0.5 *
    (((CompareCorpora.unionKeys p q).map (fun k =>
        if 0 < pyGet p k 0 then
          pyGet p k 0 * Real.logb 2 (pyGet p k 0 / (0.5 * (pyGet p k 0 + pyGet q k 0)))
        else 0)).sum +
     ((CompareCorpora.unionKeys p q).map (fun k =>
        if 0 < pyGet q k 0 then
          pyGet q k 0 * Real.logb 2 (pyGet q k 0 / (0.5 * (pyGet p k 0 + pyGet q k 0)))
        else 0)).sum)

end CompareLanguages

namespace Stats

/-- Model of `ngrams(tokens, n)` from `analytics/stats.py` and
`analysis/report_metrics.py`: guarded to return `[]` for `n <= 0`,
otherwise the list of slices `tokens[i:i+n]` for `i` in
`range(len(tokens) - n + 1)`. -/
def ngrams (tokens : List String) (n : ℤ) : List (List String) :=
  if n ≤ 0 then []
  else (List.range (((tokens.length : ℤ) - n + 1).toNat)).map
    (fun (i : ℕ) => pySlice tokens (i : ℤ) ((i : ℤ) + n))

/-- Model of `shannon_entropy(counter)` from `analytics/stats.py` and
`analysis/report_metrics.py`: returns `0.0` when the total count is zero,
otherwise accumulates `ent -= p * log2(p)` over the stored counts. -/
noncomputable def shannon_entropy (c : PyDict ℕ) : ℝ :=
  if (c.map (fun kv => kv.2)).sum = 0 then 0
  else (c.map (fun kv =>
    -(((kv.2 : ℝ) / (((c.map (fun kv => kv.2)).sum : ℕ) : ℝ)) *
      Real.logb 2 ((kv.2 : ℝ) / (((c.map (fun kv => kv.2)).sum : ℕ) : ℝ))))).sum

end Stats

namespace ReportMetrics

/-- Frequency values of the table sorted descending
(`sorted(counter.values(), reverse=True)`). -/
def sortedFreqs (c : PyDict ℕ) : List ℕ :=
  (c.map (fun kv => kv.2)).mergeSort (fun a b => decide (b ≤ a))

/-- Least-squares slope of the degree-1 fit computed by
`np.polyfit(x, y, 1)`. -/
noncomputable def polyfit_slope (xs ys : List ℝ) : ℝ :=
  ((xs.length : ℝ) * ((xs.zip ys).map (fun p => p.1 * p.2)).sum - xs.sum * ys.sum) /
    ((xs.length : ℝ) * (xs.map (fun x => x * x)).sum - xs.sum * xs.sum)

/-- Model of `zipf_slope(counter)` from `report_metrics.py`: `None` when
fewer than 3 frequency values are stored (fewer than 3 table entries),
otherwise the slope of the line fitted to `(log10(rank), log10(freq))`
over at most the top 1000 ranks of the descending frequency list. -/
noncomputable def zipf_slope (c : PyDict ℕ) : Option ℝ :=
  if (sortedFreqs c).length < 3 then none
  else
    some (polyfit_slope
      ((List.range (min (sortedFreqs c).length 1000)).map
        (fun (i : ℕ) => Real.logb 10 ((i : ℝ) + 1)))
      (((sortedFreqs c).take (min (sortedFreqs c).length 1000)).map
        (fun v => Real.logb 10 (v : ℝ))))

/-- Number of distinct frequency values stored in a table: the quantity
the claim ties the undefined Zipf result to. -/
def distinctFreqCount (c : PyDict ℕ) : ℕ :=
  ((c.map (fun kv => kv.2)).dedup).length

/-- Model of `read_lines_from_jsonl` from `report_metrics.py`: blank lines
are skipped, a line that fails to parse is skipped silently
(`try/except: continue`), and records with empty extracted text are
dropped. -/
def read_lines_from_jsonl (input : List RawLine) : List String :=
  input.filterMap (fun ln =>
    if ln.blank then none
    else
      match ln.parsed with
      | none => none
      | some o => if extractText o = "" then none else some (extractText o))

end ReportMetrics

namespace TemporalEvolution

/-- Numeric value of the decimal digit run captured by the folio regex,
as Python `int()` parses it. -/
def decimalValue (ds : List Char) : ℕ :=
  ds.foldl (fun acc c => 10 * acc + (c.toNat - Char.toNat '0')) 0

/-- Model of `TemporalAnalyzer.extract_folio_order` from
`temporal_evolution.py`: `re.match(r'(\d+)([rv])', folio)` succeeds
exactly when a nonempty leading digit run is followed by `r` or `v`; then
the order is `num * 2 + (0 if side == 'r' else 1)`; otherwise the
fallback `(0, 'r')`. -/
def extract_folio_order (folio : String) : ℕ × Char :=
  if (folio.toList.dropWhile Char.isDigit).head? = some 'r' ∧
      folio.toList.takeWhile Char.isDigit ≠ [] then
    (decimalValue (folio.toList.takeWhile Char.isDigit) * 2, 'r')
  else if (folio.toList.dropWhile Char.isDigit).head? = some 'v' ∧
      folio.toList.takeWhile Char.isDigit ≠ [] then
    (decimalValue (folio.toList.takeWhile Char.isDigit) * 2 + 1, 'v')
  else (0, 'r')

/-- Token stream of the window `folio_stats[i : i+w]` (all per-folio token
lists concatenated, as the `tokens1.extend(tokens)` loop does). -/
def windowTokens (folio_stats : List FolioStat) (i w : ℕ) : List String :=
  (((folio_stats.drop i).take w).map FolioStat.tokens).flatten

/-- Relative-entropy sum computed by `scipy.stats.entropy(pk, qk)`:
natural log, terms with zero probability in the first argument
contribute 0. -/
noncomputable def relEntropySum (a b : String → ℝ) (ks : List String) : ℝ :=
  (ks.map (fun t => if 0 < a t then a t * Real.log (a t / b t) else 0)).sum

/-- Jensen-Shannon divergence between the unigram distributions of two
token windows as computed inside `detect_vocabulary_shifts`: counts over
the union vocabulary normalised by each window length, mixture `m`, and
`0.5 * entropy(freq1, m) + 0.5 * entropy(freq2, m)` in nats. -/
noncomputable def jsdShift (tokens1 tokens2 : List String) : ℝ :=
  0.5 * relEntropySum
      (fun t => (tokens1.count t : ℝ) / (tokens1.length : ℝ))
      (fun t => 0.5 * ((tokens1.count t : ℝ) / (tokens1.length : ℝ) +
        (tokens2.count t : ℝ) / (tokens2.length : ℝ)))
      ((tokens1 ++ tokens2).dedup) +
    0.5 * relEntropySum
      (fun t => (tokens2.count t : ℝ) / (tokens2.length : ℝ))
      (fun t => 0.5 * ((tokens1.count t : ℝ) / (tokens1.length : ℝ) +
        (tokens2.count t : ℝ) / (tokens2.length : ℝ)))
      ((tokens1 ++ tokens2).dedup)

/-- Model of `TemporalAnalyzer.detect_vocabulary_shifts`: for each `i` in
`range(len(folio_stats) - window_size)` compare the windows
`folio_stats[i : i+w]` and `folio_stats[i+w : i+2w]` (the second window is
truncated at the end of the list); pairs where either window carries no
tokens are skipped. -/
noncomputable def detect_vocabulary_shifts (folio_stats : List FolioStat)
    (window_size : ℕ) : List VocabShift :=
  (List.range (folio_stats.length - window_size)).filterMap (fun i =>
    if windowTokens folio_stats i window_size = [] ∨
        windowTokens folio_stats (i + window_size) window_size = [] then none
    else some
      { window_start :=
          (((folio_stats.drop i).take window_size).map FolioStat.folio).headD ""
        window_end :=
          (((folio_stats.drop (i + window_size)).take window_size).map
            FolioStat.folio).getLastD ""
        jaccard_similarity :=
          if 0 < ((windowTokens folio_stats i window_size).toFinset ∪
              (windowTokens folio_stats (i + window_size) window_size).toFinset).card then
            (((windowTokens folio_stats i window_size).toFinset ∩
              (windowTokens folio_stats (i + window_size) window_size).toFinset).card : ℝ) /
              (((windowTokens folio_stats i window_size).toFinset ∪
                (windowTokens folio_stats (i + window_size) window_size).toFinset).card : ℝ)
          else 0
        jsd_distance := jsdShift (windowTokens folio_stats i window_size)
          (windowTokens folio_stats (i + window_size) window_size)
        vocab_size_1 := (windowTokens folio_stats i window_size).toFinset.card
        vocab_size_2 := (windowTokens folio_stats (i + window_size) window_size).toFinset.card
        new_tokens := ((windowTokens folio_stats (i + window_size) window_size).toFinset \
          (windowTokens folio_stats i window_size).toFinset).card
        disappeared_tokens := ((windowTokens folio_stats i window_size).toFinset \
          (windowTokens folio_stats (i + window_size) window_size).toFinset).card })

end TemporalEvolution

/-- Probability distribution as produced by `counter_to_prob` and required
by the data model of the spec: unique keys, values in `[0, 1]` summing to
1, or the empty dict for an empty corpus (the zero measure). -/
def IsProbDist (p : PyDict ℝ) : Prop :=
  (keyList p).Nodup ∧ (∀ kv ∈ p, 0 ≤ kv.2) ∧
    (p = [] ∨ (p.map (fun kv => kv.2)).sum = 1)

/-- Example distribution used to instantiate divergence theorems. -/
noncomputable def exampleDistP : PyDict ℝ := [("a", 0.5), ("b", 0.5)]

/-- Second example distribution used to instantiate divergence theorems. -/
noncomputable def exampleDistQ : PyDict ℝ := [("a", 1)]

/-- Example table for the Zipf-slope refutation: three keys, each with
count 1, hence a single distinct frequency value. -/
def zipfExampleTable : PyDict ℕ := [("a", 1), ("b", 1), ("c", 1)]

/-- Spec example input: four folio units in manuscript order, each with a
nonempty token list. -/
def exampleFolios : List FolioStat :=
  [⟨"1r", ["daiin"]⟩, ⟨"1v", ["qokedy"]⟩, ⟨"2r", ["daiin"]⟩, ⟨"2v", ["chedy"]⟩]

namespace CompareCorpora

theorem pyGet_eq_of_mem_nodup {α : Type} {d : PyDict α} {k : String} {v : α}
    (hnd : (keyList d).Nodup) (hmem : (k, v) ∈ d) (default : α) :
    pyGet d k default = v := by
  induction d with
  | nil => cases hmem
  | cons kv rest ih =>
    simp only [keyList, List.map_cons, List.nodup_cons] at hnd
    rcases List.mem_cons.mp hmem with h | h
    · subst h
      simp [pyGet, List.find?]
    · have hne : kv.1 ≠ k := by
        intro he
        exact hnd.1 (he ▸ (List.mem_map.mpr ⟨(k, v), h, rfl⟩))
      have : (kv.1 == k) = false := beq_false_of_ne hne
      simp only [pyGet, List.find?, this]
      exact ih hnd.2 h

theorem pyGet_eq_default_of_not_mem {α : Type} {d : PyDict α} {k : String}
    (h : k ∉ keyList d) (default : α) : pyGet d k default = default := by
  induction d with
  | nil => rfl
  | cons kv rest ih =>
    simp only [keyList, List.map_cons, List.mem_cons, not_or] at h
    have : (kv.1 == k) = false := beq_false_of_ne (fun he => h.1 he.symm)
    simp only [pyGet, List.find?, this]
    exact ih h.2

theorem pyGet_mem_or_default {α : Type} (d : PyDict α) (k : String) (default : α) :
    (∃ kv ∈ d, kv.1 = k ∧ pyGet d k default = kv.2) ∨ pyGet d k default = default := by
  unfold pyGet
  cases hf : d.find? (fun kv => kv.1 == k) with
  | none => exact Or.inr rfl
  | some kv =>
    left
    refine ⟨kv, List.mem_of_find?_eq_some hf, ?_, rfl⟩
    have := List.find?_some hf
    exact eq_of_beq this

theorem pyGet_nonneg {d : PyDict ℝ} (h : ∀ kv ∈ d, 0 ≤ kv.2) (k : String) :
    0 ≤ pyGet d k 0 := by
  rcases pyGet_mem_or_default d k 0 with ⟨kv, hmem, _, he⟩ | he
  · rw [he]; exact h kv hmem
  · rw [he]

theorem mem_unionKeys {α : Type} {p q : PyDict α} {k : String} :
    k ∈ unionKeys p q ↔ k ∈ keyList p ∨ k ∈ keyList q := by
  simp [unionKeys, List.mem_dedup, List.mem_append]

theorem nodup_unionKeys {α : Type} (p q : PyDict α) : (unionKeys p q).Nodup :=
  List.nodup_dedup _

theorem pyGet_map_pair {β : Type} (l : List String) (f : String → β) (k : String)
    (default : β) (hnd : l.Nodup) :
    pyGet (l.map (fun x => (x, f x))) k default = if k ∈ l then f k else default := by
  induction l with
  | nil => simp [pyGet]
  | cons x xs ih =>
    rcases List.nodup_cons.mp hnd with ⟨_, hxs⟩
    by_cases hx : x = k
    · subst hx
      simp [pyGet, List.find?]
    · have : (x == k) = false := beq_false_of_ne hx
      simp only [List.map_cons, pyGet, List.find?, this]
      have := ih hxs
      simp only [pyGet] at this
      rw [this]
      simp [List.mem_cons, Ne.symm hx]

theorem pyGet_mixDict (p q : PyDict ℝ) (k : String) :
    pyGet (mixDict p q) k 0 =
      if k ∈ unionKeys p q then 0.5 * (pyGet p k 0 + pyGet q k 0) else 0 := by
  unfold mixDict
  exact pyGet_map_pair (unionKeys p q) _ k 0 (nodup_unionKeys p q)

theorem pyGet_mixDict_of_mem {p q : PyDict ℝ} {k : String} (h : k ∈ unionKeys p q) :
    pyGet (mixDict p q) k 0 = 0.5 * (pyGet p k 0 + pyGet q k 0) := by
  rw [pyGet_mixDict]
  simp [h]

theorem kl_congr (a : PyDict ℝ) {b c : PyDict ℝ}
    (h : ∀ k ∈ keyList a, pyGet b k 0 = pyGet c k 0) : kl a b = kl a c := by
  unfold kl
  congr 1
  refine List.map_congr_left (fun kv hkv => ?_)
  rw [h kv.1 (List.mem_map.mpr ⟨kv, hkv, rfl⟩)]

theorem mixDict_get_comm (p q : PyDict ℝ) (k : String) :
    pyGet (mixDict p q) k 0 = pyGet (mixDict q p) k 0 := by
  rw [pyGet_mixDict, pyGet_mixDict]
  have hm : k ∈ unionKeys p q ↔ k ∈ unionKeys q p := by
    rw [mem_unionKeys, mem_unionKeys, or_comm]
  by_cases h : k ∈ unionKeys p q
  · rw [if_pos h, if_pos (hm.mp h), add_comm]
  · rw [if_neg h, if_neg (fun hc => h (hm.mpr hc))]

theorem kl_self_mix (p : PyDict ℝ) (hnd : (keyList p).Nodup) :
    kl p (mixDict p p) = 0 := by
  unfold kl
  apply List.sum_eq_zero
  intro x hx
  rcases List.mem_map.mp hx with ⟨kv, hkv, rfl⟩
  by_cases hz : kv.2 = 0
  · simp [hz]
  · have hk : kv.1 ∈ unionKeys p p :=
      mem_unionKeys.mpr (Or.inl (List.mem_map.mpr ⟨kv, hkv, rfl⟩))
    have hg : pyGet p kv.1 0 = kv.2 := pyGet_eq_of_mem_nodup hnd hkv 0
    have hb : pyGet (mixDict p p) kv.1 0 = kv.2 := by
      rw [pyGet_mixDict_of_mem hk, hg]
      ring
    simp only [hz, if_false, hb]
    rw [div_self hz]
    simp

theorem js_divergence_comm (p q : PyDict ℝ) :
    js_divergence p q = js_divergence q p := by
  unfold js_divergence
  have h1 : kl p (mixDict p q) = kl p (mixDict q p) :=
    kl_congr p (fun k _ => mixDict_get_comm p q k)
  have h2 : kl q (mixDict p q) = kl q (mixDict q p) :=
    kl_congr q (fun k _ => mixDict_get_comm p q k)
  rw [h1, h2, add_comm]

end CompareCorpora

namespace CompareLanguages

theorem unionKeys_toFinset_comm {α : Type} (p q : PyDict α) :
    (CompareCorpora.unionKeys p q).toFinset = (CompareCorpora.unionKeys q p).toFinset := by
  ext k
  simp only [List.mem_toFinset, CompareCorpora.mem_unionKeys]
  exact or_comm

theorem js_divergence_comm_vec (p q : PyDict ℝ) :
    js_divergence p q = js_divergence q p := by
  unfold js_divergence
  rw [← List.sum_toFinset _ (CompareCorpora.nodup_unionKeys p q),
    ← List.sum_toFinset _ (CompareCorpora.nodup_unionKeys p q),
    ← List.sum_toFinset _ (CompareCorpora.nodup_unionKeys q p),
    ← List.sum_toFinset _ (CompareCorpora.nodup_unionKeys q p),
    unionKeys_toFinset_comm p q]
  have e1 : ((CompareCorpora.unionKeys q p).toFinset.sum (fun k =>
      if 0 < pyGet p k 0 then
        pyGet p k 0 * Real.logb 2 (pyGet p k 0 / (0.5 * (pyGet p k 0 + pyGet q k 0)))
      else 0)) =
      ((CompareCorpora.unionKeys q p).toFinset.sum (fun k =>
      if 0 < pyGet p k 0 then
        pyGet p k 0 * Real.logb 2 (pyGet p k 0 / (0.5 * (pyGet q k 0 + pyGet p k 0)))
      else 0)) := by
    refine Finset.sum_congr rfl (fun k _ => ?_)
    rw [add_comm (pyGet p k 0) (pyGet q k 0)]
  have e2 : ((CompareCorpora.unionKeys q p).toFinset.sum (fun k =>
      if 0 < pyGet q k 0 then
        pyGet q k 0 * Real.logb 2 (pyGet q k 0 / (0.5 * (pyGet p k 0 + pyGet q k 0)))
      else 0)) =
      ((CompareCorpora.unionKeys q p).toFinset.sum (fun k =>
      if 0 < pyGet q k 0 then
        pyGet q k 0 * Real.logb 2 (pyGet q k 0 / (0.5 * (pyGet q k 0 + pyGet p k 0)))
      else 0)) := by
    refine Finset.sum_congr rfl (fun k _ => ?_)
    rw [add_comm (pyGet p k 0) (pyGet q k 0)]
  rw [e1, e2, add_comm]

theorem js_divergence_self (p : PyDict ℝ) : js_divergence p p = 0 := by
  unfold js_divergence
  have hz : ((CompareCorpora.unionKeys p p).map (fun k =>
      if 0 < pyGet p k 0 then
        pyGet p k 0 * Real.logb 2 (pyGet p k 0 / (0.5 * (pyGet p k 0 + pyGet p k 0)))
      else 0)).sum = 0 := by
    apply List.sum_eq_zero
    intro x hx
    rcases List.mem_map.mp hx with ⟨k, _, rfl⟩
    by_cases h : 0 < pyGet p k 0
    · have hne : pyGet p k 0 ≠ 0 := ne_of_gt h
      have hmix : (0.5 : ℝ) * (pyGet p k 0 + pyGet p k 0) = pyGet p k 0 := by ring
      rw [if_pos h, hmix, div_self hne]
      simp
    · rw [if_neg h]
  rw [hz]
  simp

end CompareLanguages

/-- C2: `js_divergence(P, P) = 0` exactly, and `js_divergence(P, Q) =
js_divergence(Q, P)` for all `P`, `Q`; in both the `compare_corpora.py`
version (the self-distance requires the dict invariant of unique keys)
and the `compare_languages.py` version. -/
theorem js_divergence_self_and_symm (p q : PyDict ℝ) :
    ((keyList p).Nodup → CompareCorpora.js_divergence p p = 0) ∧
    CompareCorpora.js_divergence p q = CompareCorpora.js_divergence q p ∧
    CompareLanguages.js_divergence p p = 0 ∧
    CompareLanguages.js_divergence p q = CompareLanguages.js_divergence q p := by
  refine ⟨fun hnd => ?_, CompareCorpora.js_divergence_comm p q,
    CompareLanguages.js_divergence_self p, CompareLanguages.js_divergence_comm_vec p q⟩
  unfold CompareCorpora.js_divergence
  have h1 : CompareCorpora.kl p (CompareCorpora.mixDict p p) = 0 :=
    CompareCorpora.kl_self_mix p hnd
  rw [h1]
  simp

/-- Witness for C2 at the concrete distributions `[("a", 0.5), ("b", 0.5)]`
and `[("a", 1)]`. -/
theorem js_divergence_self_and_symm_witness :
    CompareCorpora.js_divergence exampleDistP exampleDistP = 0 ∧
    CompareCorpora.js_divergence exampleDistP exampleDistQ =
      CompareCorpora.js_divergence exampleDistQ exampleDistP := by
  have h := js_divergence_self_and_symm exampleDistP exampleDistQ
  refine ⟨h.1 ?_, h.2.1⟩
  simp [exampleDistP, keyList]

namespace CompareCorpora

theorem mixDict_get_pos_left {p q : PyDict ℝ}
    (hp : ∀ kv ∈ p, 0 ≤ kv.2) (hq : ∀ kv ∈ q, 0 ≤ kv.2)
    (hnp : (keyList p).Nodup) {kv : String × ℝ} (hkv : kv ∈ p) (hv : kv.2 ≠ 0) :
    0 < pyGet (mixDict p q) kv.1 0 := by
  have hk : kv.1 ∈ unionKeys p q :=
    mem_unionKeys.mpr (Or.inl (List.mem_map.mpr ⟨kv, hkv, rfl⟩))
  rw [pyGet_mixDict_of_mem hk, pyGet_eq_of_mem_nodup hnp hkv 0]
  have hvpos : 0 < kv.2 := lt_of_le_of_ne (hp kv hkv) (Ne.symm hv)
  have hqnn : 0 ≤ pyGet q kv.1 0 := pyGet_nonneg hq kv.1
  nlinarith

theorem kl_eq_klNoEps_left {p q : PyDict ℝ}
    (hp : ∀ kv ∈ p, 0 ≤ kv.2) (hq : ∀ kv ∈ q, 0 ≤ kv.2)
    (hnp : (keyList p).Nodup) :
    kl p (mixDict p q) = klNoEps p (mixDict p q) := by
  unfold kl klNoEps
  congr 1
  refine List.map_congr_left (fun kv hkv => ?_)
  by_cases hz : kv.2 = 0
  · simp [hz]
  · have hbv : pyGet (mixDict p q) kv.1 0 ≠ 0 :=
      ne_of_gt (mixDict_get_pos_left hp hq hnp hkv hz)
    simp [hz, hbv]

end CompareCorpora

/-- C10: for nonnegative-valued dicts `p` and `q` (the dict invariant of
unique keys assumed), the zero-denominator epsilon branch inside
`js_divergence`'s `kl` helper in `compare_corpora.py` is unreachable:
every key with nonzero mass in `p` or in `q` receives strictly positive
mass `0.5 * (p.get(k) + q.get(k))` in the mixture, so `js_divergence`
coincides with the variant that has no epsilon fallback, and in the
`compare_languages.py` vector layout every masked KL term likewise divides
by a strictly positive mixture entry. -/
theorem js_divergence_epsilon_unreachable (p q : PyDict ℝ)
    (hp : ∀ kv ∈ p, 0 ≤ kv.2) (hq : ∀ kv ∈ q, 0 ≤ kv.2)
    (hnp : (keyList p).Nodup) (hnq : (keyList q).Nodup) :
    (∀ kv ∈ p, kv.2 ≠ 0 → 0 < pyGet (CompareCorpora.mixDict p q) kv.1 0) ∧
    (∀ kv ∈ q, kv.2 ≠ 0 → 0 < pyGet (CompareCorpora.mixDict p q) kv.1 0) ∧
    CompareCorpora.js_divergence p q =
      0.5 * (CompareCorpora.klNoEps p (CompareCorpora.mixDict p q) +
             CompareCorpora.klNoEps q (CompareCorpora.mixDict p q)) ∧
    (∀ k, 0 < pyGet p k 0 → 0 < 0.5 * (pyGet p k 0 + pyGet q k 0)) ∧
    (∀ k, 0 < pyGet q k 0 → 0 < 0.5 * (pyGet p k 0 + pyGet q k 0)) := by
  refine ⟨fun kv hkv hv => CompareCorpora.mixDict_get_pos_left hp hq hnp hkv hv,
    fun kv hkv hv => ?_, ?_, fun k hk => ?_, fun k hk => ?_⟩
  · have := CompareCorpora.mixDict_get_pos_left hq hp hnq hkv hv (q := p)
    rwa [← CompareCorpora.mixDict_get_comm p q kv.1] at this
  · unfold CompareCorpora.js_divergence
    rw [CompareCorpora.kl_eq_klNoEps_left hp hq hnp]
    have h2 : CompareCorpora.kl q (CompareCorpora.mixDict p q) =
        CompareCorpora.klNoEps q (CompareCorpora.mixDict p q) := by
      have e1 : CompareCorpora.kl q (CompareCorpora.mixDict p q) =
          CompareCorpora.kl q (CompareCorpora.mixDict q p) :=
        CompareCorpora.kl_congr q (fun k _ => CompareCorpora.mixDict_get_comm p q k)
      have e2 : CompareCorpora.klNoEps q (CompareCorpora.mixDict q p) =
          CompareCorpora.klNoEps q (CompareCorpora.mixDict p q) := by
        unfold CompareCorpora.klNoEps
        congr 1
        refine List.map_congr_left (fun kv _ => ?_)
        rw [CompareCorpora.mixDict_get_comm q p kv.1]
      rw [e1, CompareCorpora.kl_eq_klNoEps_left hq hp hnq, e2]
    rw [h2]
  · have : 0 ≤ pyGet q k 0 := CompareCorpora.pyGet_nonneg hq k
    nlinarith
  · have : 0 ≤ pyGet p k 0 := CompareCorpora.pyGet_nonneg hp k
    nlinarith

/-- Witness for C10 at the concrete nonnegative dicts `[("a", 0.5), ("b", 0.5)]`
and `[("a", 1)]`. -/
theorem js_divergence_epsilon_unreachable_witness :
    (∀ kv ∈ exampleDistP, kv.2 ≠ 0 →
      0 < pyGet (CompareCorpora.mixDict exampleDistP exampleDistQ) kv.1 0) ∧
    (∀ kv ∈ exampleDistQ, kv.2 ≠ 0 →
      0 < pyGet (CompareCorpora.mixDict exampleDistP exampleDistQ) kv.1 0) ∧
    CompareCorpora.js_divergence exampleDistP exampleDistQ =
      0.5 * (CompareCorpora.klNoEps exampleDistP
               (CompareCorpora.mixDict exampleDistP exampleDistQ) +
             CompareCorpora.klNoEps exampleDistQ
               (CompareCorpora.mixDict exampleDistP exampleDistQ)) ∧
    (∀ k, 0 < pyGet exampleDistP k 0 →
      0 < 0.5 * (pyGet exampleDistP k 0 + pyGet exampleDistQ k 0)) ∧
    (∀ k, 0 < pyGet exampleDistQ k 0 →
      0 < 0.5 * (pyGet exampleDistP k 0 + pyGet exampleDistQ k 0)) := by
  refine js_divergence_epsilon_unreachable exampleDistP exampleDistQ ?_ ?_ ?_ ?_
  · intro kv hkv
    simp only [exampleDistP, List.mem_cons, List.not_mem_nil, or_false] at hkv
    rcases hkv with h | h <;> rw [h] <;> norm_num
  · intro kv hkv
    simp only [exampleDistQ, List.mem_cons, List.not_mem_nil, or_false] at hkv
    rw [hkv]
    norm_num
  · simp [exampleDistP, keyList]
  · simp [exampleDistQ, keyList]

theorem list_sum_map_add {α : Type} (l : List α) (f g : α → ℝ) :
    (l.map (fun x => f x + g x)).sum = (l.map f).sum + (l.map g).sum := by
  induction l with
  | nil => simp
  | cons a t ih => simp only [List.map_cons, List.sum_cons, ih]; ring

theorem list_sum_map_mul_left {α : Type} (l : List α) (c : ℝ) (f : α → ℝ) :
    (l.map (fun x => c * f x)).sum = c * (l.map f).sum := by
  induction l with
  | nil => simp
  | cons a t ih => simp only [List.map_cons, List.sum_cons, ih]; ring

theorem list_sum_map_div {α : Type} (l : List α) (f : α → ℝ) (c : ℝ) :
    (l.map (fun x => f x / c)).sum = (l.map f).sum / c := by
  induction l with
  | nil => simp
  | cons a t ih => simp only [List.map_cons, List.sum_cons, ih, add_div]

theorem list_sum_map_sub {α : Type} (l : List α) (f g : α → ℝ) :
    (l.map (fun x => f x - g x)).sum = (l.map f).sum - (l.map g).sum := by
  induction l with
  | nil => simp
  | cons a t ih => simp only [List.map_cons, List.sum_cons, ih]; ring

namespace CompareCorpora

theorem mixDict_get_nonneg {p q : PyDict ℝ}
    (hp : ∀ kv ∈ p, 0 ≤ kv.2) (hq : ∀ kv ∈ q, 0 ≤ kv.2) (k : String) :
    0 ≤ pyGet (mixDict p q) k 0 := by
  rw [pyGet_mixDict]
  by_cases h : k ∈ unionKeys p q
  · rw [if_pos h]
    have h1 := pyGet_nonneg hp k
    have h2 := pyGet_nonneg hq k
    nlinarith
  · rw [if_neg h]

theorem mixDict_get_pos_right {p q : PyDict ℝ}
    (hp : ∀ kv ∈ p, 0 ≤ kv.2) (hq : ∀ kv ∈ q, 0 ≤ kv.2)
    (hnq : (keyList q).Nodup) {kv : String × ℝ} (hkv : kv ∈ q) (hv : kv.2 ≠ 0) :
    0 < pyGet (mixDict p q) kv.1 0 := by
  have := mixDict_get_pos_left hq hp hnq hkv hv (q := p)
  rwa [mixDict_get_comm q p kv.1] at this

theorem sum_keyList_pyGet (p : PyDict ℝ) (hnp : (keyList p).Nodup) :
    ((keyList p).map (fun k => pyGet p k 0)).sum = (p.map (fun kv => kv.2)).sum := by
  unfold keyList
  rw [List.map_map]
  congr 1
  refine List.map_congr_left (fun kv hkv => ?_)
  exact pyGet_eq_of_mem_nodup hnp hkv 0

theorem sum_union_eq_sum_keyList (p q : PyDict ℝ) (a : PyDict ℝ) (F : String → ℝ)
    (hna : (keyList a).Nodup) (hsub : ∀ k ∈ keyList a, k ∈ unionKeys p q)
    (hz : ∀ k ∈ unionKeys p q, k ∉ keyList a → F k = 0) :
    ((unionKeys p q).map F).sum = ((keyList a).map F).sum := by
  rw [← List.sum_toFinset F (nodup_unionKeys p q), ← List.sum_toFinset F hna]
  refine (Finset.sum_subset ?_ ?_).symm
  · intro k hk
    exact List.mem_toFinset.mpr (hsub k (List.mem_toFinset.mp hk))
  · intro k hk hnk
    exact hz k (List.mem_toFinset.mp hk) (fun hc => hnk (List.mem_toFinset.mpr hc))

theorem sum_union_pyGet_left (p q : PyDict ℝ) (hnp : (keyList p).Nodup) :
    ((unionKeys p q).map (fun k => pyGet p k 0)).sum = (p.map (fun kv => kv.2)).sum := by
  rw [sum_union_eq_sum_keyList p q p (fun k => pyGet p k 0) hnp
    (fun k hk => mem_unionKeys.mpr (Or.inl hk))
    (fun k _ hnk => pyGet_eq_default_of_not_mem hnk 0)]
  exact sum_keyList_pyGet p hnp

theorem sum_union_pyGet_right (p q : PyDict ℝ) (hnq : (keyList q).Nodup) :
    ((unionKeys p q).map (fun k => pyGet q k 0)).sum = (q.map (fun kv => kv.2)).sum := by
  rw [sum_union_eq_sum_keyList p q q (fun k => pyGet q k 0) hnq
    (fun k hk => mem_unionKeys.mpr (Or.inr hk))
    (fun k _ hnk => pyGet_eq_default_of_not_mem hnk 0)]
  exact sum_keyList_pyGet q hnq

theorem sum_union_mixDict (p q : PyDict ℝ)
    (hnp : (keyList p).Nodup) (hnq : (keyList q).Nodup) :
    ((unionKeys p q).map (fun k => pyGet (mixDict p q) k 0)).sum =
      0.5 * ((p.map (fun kv => kv.2)).sum + (q.map (fun kv => kv.2)).sum) := by
  have h1 : ((unionKeys p q).map (fun k => pyGet (mixDict p q) k 0)).sum =
      ((unionKeys p q).map (fun k => 0.5 * (pyGet p k 0 + pyGet q k 0))).sum := by
    congr 1
    exact List.map_congr_left (fun k hk => pyGet_mixDict_of_mem hk)
  rw [h1, list_sum_map_mul_left, list_sum_map_add,
    sum_union_pyGet_left p q hnp, sum_union_pyGet_right p q hnq]

theorem sum_items_mixDict_le (p q : PyDict ℝ)
    (hp : ∀ kv ∈ p, 0 ≤ kv.2) (hq : ∀ kv ∈ q, 0 ≤ kv.2)
    (hnp : (keyList p).Nodup) :
    ((keyList p).map (fun k => pyGet (mixDict p q) k 0)).sum ≤
      ((unionKeys p q).map (fun k => pyGet (mixDict p q) k 0)).sum := by
  rw [← List.sum_toFinset _ hnp, ← List.sum_toFinset _ (nodup_unionKeys p q)]
  refine Finset.sum_le_sum_of_subset_of_nonneg ?_ ?_
  · intro k hk
    exact List.mem_toFinset.mpr (mem_unionKeys.mpr (Or.inl (List.mem_toFinset.mp hk)))
  · intro k _ _
    exact mixDict_get_nonneg hp hq k

theorem kl_mix_le_sum (p q : PyDict ℝ)
    (hp : ∀ kv ∈ p, 0 ≤ kv.2) (hq : ∀ kv ∈ q, 0 ≤ kv.2)
    (hnp : (keyList p).Nodup) :
    kl p (mixDict p q) ≤ (p.map (fun kv => kv.2)).sum := by
  unfold kl
  refine List.sum_le_sum (fun kv hkv => ?_)
  by_cases hz : kv.2 = 0
  · rw [if_pos hz, hz]
  · have hvpos : 0 < kv.2 := lt_of_le_of_ne (hp kv hkv) (Ne.symm hz)
    have hbv : 0 < pyGet (mixDict p q) kv.1 0 := mixDict_get_pos_left hp hq hnp hkv hz
    rw [if_neg hz, if_neg (ne_of_gt hbv)]
    have hk : kv.1 ∈ unionKeys p q :=
      mem_unionKeys.mpr (Or.inl (List.mem_map.mpr ⟨kv, hkv, rfl⟩))
    have hratio : kv.2 / pyGet (mixDict p q) kv.1 0 ≤ 2 := by
      rw [div_le_iff₀ hbv, pyGet_mixDict_of_mem hk, pyGet_eq_of_mem_nodup hnp hkv 0]
      have := pyGet_nonneg hq kv.1
      nlinarith
    have hlog : Real.logb 2 (kv.2 / pyGet (mixDict p q) kv.1 0) ≤ 1 := by
      have h2 : Real.logb 2 2 = 1 := Real.logb_self_eq_one (by norm_num)
      calc Real.logb 2 (kv.2 / pyGet (mixDict p q) kv.1 0) ≤ Real.logb 2 2 :=
            (Real.logb_le_logb (by norm_num) (div_pos hvpos hbv) (by norm_num)).mpr hratio
        _ = 1 := h2
    calc kv.2 * Real.logb 2 (kv.2 / pyGet (mixDict p q) kv.1 0) ≤ kv.2 * 1 :=
          mul_le_mul_of_nonneg_left hlog (le_of_lt hvpos)
      _ = kv.2 := mul_one _

theorem kl_mix_nonneg (p q : PyDict ℝ)
    (hnp : (keyList p).Nodup) (hnq : (keyList q).Nodup)
    (hp : ∀ kv ∈ p, 0 ≤ kv.2) (hq : ∀ kv ∈ q, 0 ≤ kv.2)
    (hps : (p.map (fun kv => kv.2)).sum = 1)
    (hqs : (q.map (fun kv => kv.2)).sum ≤ 1) :
    0 ≤ kl p (mixDict p q) := by
  have hlog2 : (0:ℝ) < Real.log 2 := Real.log_pos (by norm_num)
  have step1 : kl p (mixDict p q) =
      ((p.map (fun kv => if kv.2 = 0 then 0
        else kv.2 * Real.log (kv.2 / pyGet (mixDict p q) kv.1 0))).sum) / Real.log 2 := by
    unfold kl
    rw [← list_sum_map_div]
    congr 1
    refine List.map_congr_left (fun kv hkv => ?_)
    by_cases hz : kv.2 = 0
    · rw [if_pos hz, if_pos hz, zero_div]
    · have hbv : 0 < pyGet (mixDict p q) kv.1 0 := mixDict_get_pos_left hp hq hnp hkv hz
      rw [if_neg hz, if_neg (ne_of_gt hbv), if_neg hz, Real.logb, ← mul_div_assoc]
  rw [step1]
  refine div_nonneg ?_ (le_of_lt hlog2)
  have hlb : ∀ kv ∈ p, kv.2 - (if kv.2 = 0 then 0 else pyGet (mixDict p q) kv.1 0) ≤
      (if kv.2 = 0 then 0 else kv.2 * Real.log (kv.2 / pyGet (mixDict p q) kv.1 0)) := by
    intro kv hkv
    by_cases hz : kv.2 = 0
    · rw [if_pos hz, if_pos hz, hz]
      norm_num
    · have hvpos : 0 < kv.2 := lt_of_le_of_ne (hp kv hkv) (Ne.symm hz)
      have hbv : 0 < pyGet (mixDict p q) kv.1 0 := mixDict_get_pos_left hp hq hnp hkv hz
      rw [if_neg hz, if_neg hz]
      have hfrac : 0 < pyGet (mixDict p q) kv.1 0 / kv.2 := div_pos hbv hvpos
      have h1 : Real.log (pyGet (mixDict p q) kv.1 0 / kv.2) ≤
          pyGet (mixDict p q) kv.1 0 / kv.2 - 1 := Real.log_le_sub_one_of_pos hfrac
      have h2 : kv.2 * Real.log (pyGet (mixDict p q) kv.1 0 / kv.2) ≤
          kv.2 * (pyGet (mixDict p q) kv.1 0 / kv.2 - 1) :=
        mul_le_mul_of_nonneg_left h1 (le_of_lt hvpos)
      have h3 : kv.2 * (pyGet (mixDict p q) kv.1 0 / kv.2 - 1) =
          pyGet (mixDict p q) kv.1 0 - kv.2 := by
        field_simp
      have h4 : Real.log (kv.2 / pyGet (mixDict p q) kv.1 0) =
          - Real.log (pyGet (mixDict p q) kv.1 0 / kv.2) := by
        rw [← Real.log_inv, inv_div]
      rw [h4]
      nlinarith
  have hsum1 : ((p.map (fun kv => kv.2 -
      (if kv.2 = 0 then 0 else pyGet (mixDict p q) kv.1 0))).sum) ≤
      ((p.map (fun kv => if kv.2 = 0 then 0
        else kv.2 * Real.log (kv.2 / pyGet (mixDict p q) kv.1 0))).sum) :=
    List.sum_le_sum hlb
  have hmask : ((p.map (fun kv => if kv.2 = 0 then 0 else pyGet (mixDict p q) kv.1 0)).sum) ≤
      ((p.map (fun kv => pyGet (mixDict p q) kv.1 0)).sum) := by
    refine List.sum_le_sum (fun kv hkv => ?_)
    by_cases hz : kv.2 = 0
    · rw [if_pos hz]
      exact mixDict_get_nonneg hp hq kv.1
    · rw [if_neg hz]
  have hitems : ((p.map (fun kv => pyGet (mixDict p q) kv.1 0)).sum) =
      ((keyList p).map (fun k => pyGet (mixDict p q) k 0)).sum := by
    unfold keyList
    rw [List.map_map]
    rfl
  have hmixsum : ((unionKeys p q).map (fun k => pyGet (mixDict p q) k 0)).sum ≤ 1 := by
    rw [sum_union_mixDict p q hnp hnq, hps]
    nlinarith
  have hchain : ((p.map (fun kv => if kv.2 = 0 then 0 else pyGet (mixDict p q) kv.1 0)).sum) ≤ 1 := by
    calc ((p.map (fun kv => if kv.2 = 0 then 0 else pyGet (mixDict p q) kv.1 0)).sum) ≤
        ((p.map (fun kv => pyGet (mixDict p q) kv.1 0)).sum) := hmask
      _ = ((keyList p).map (fun k => pyGet (mixDict p q) k 0)).sum := hitems
      _ ≤ ((unionKeys p q).map (fun k => pyGet (mixDict p q) k 0)).sum :=
          sum_items_mixDict_le p q hp hq hnp
      _ ≤ 1 := hmixsum
  have hsplit : ((p.map (fun kv => kv.2 -
      (if kv.2 = 0 then 0 else pyGet (mixDict p q) kv.1 0))).sum) =
      (p.map (fun kv => kv.2)).sum -
      ((p.map (fun kv => if kv.2 = 0 then 0 else pyGet (mixDict p q) kv.1 0)).sum) :=
    list_sum_map_sub p (fun kv => kv.2) (fun kv => if kv.2 = 0 then 0 else pyGet (mixDict p q) kv.1 0)
  rw [hsplit, hps] at hsum1
  linarith

theorem lang_mask_sum_eq_kl_left (p q : PyDict ℝ)
    (hp : ∀ kv ∈ p, 0 ≤ kv.2) (hq : ∀ kv ∈ q, 0 ≤ kv.2)
    (hnp : (keyList p).Nodup) :
    ((unionKeys p q).map (fun k =>
      if 0 < pyGet p k 0 then
        pyGet p k 0 * Real.logb 2 (pyGet p k 0 / (0.5 * (pyGet p k 0 + pyGet q k 0)))
      else 0)).sum = kl p (mixDict p q) := by
  have hA : ((unionKeys p q).map (fun k =>
      if 0 < pyGet p k 0 then
        pyGet p k 0 * Real.logb 2 (pyGet p k 0 / (0.5 * (pyGet p k 0 + pyGet q k 0)))
      else 0)).sum =
      ((unionKeys p q).map (fun k =>
      if 0 < pyGet p k 0 then
        pyGet p k 0 * Real.logb 2 (pyGet p k 0 / pyGet (mixDict p q) k 0)
      else 0)).sum := by
    congr 1
    refine List.map_congr_left (fun k hk => ?_)
    rw [pyGet_mixDict_of_mem hk]
  rw [hA, sum_union_eq_sum_keyList p q p _ hnp
    (fun k hk => mem_unionKeys.mpr (Or.inl hk))
    (fun k _ hnk => by rw [pyGet_eq_default_of_not_mem hnk 0]; simp)]
  unfold kl keyList
  rw [List.map_map]
  congr 1
  refine List.map_congr_left (fun kv hkv => ?_)
  have hgv : pyGet p kv.1 0 = kv.2 := pyGet_eq_of_mem_nodup hnp hkv 0
  by_cases hz : kv.2 = 0
  · simp only [Function.comp_apply, hgv, hz]
    norm_num
  · have hvpos : 0 < kv.2 := lt_of_le_of_ne (hp kv hkv) (Ne.symm hz)
    have hbv : 0 < pyGet (mixDict p q) kv.1 0 := mixDict_get_pos_left hp hq hnp hkv hz
    simp only [Function.comp_apply, hgv]
    rw [if_pos hvpos, if_neg hz, if_neg (ne_of_gt hbv)]

theorem lang_mask_sum_eq_kl_right (p q : PyDict ℝ)
    (hp : ∀ kv ∈ p, 0 ≤ kv.2) (hq : ∀ kv ∈ q, 0 ≤ kv.2)
    (hnq : (keyList q).Nodup) :
    ((unionKeys p q).map (fun k =>
      if 0 < pyGet q k 0 then
        pyGet q k 0 * Real.logb 2 (pyGet q k 0 / (0.5 * (pyGet p k 0 + pyGet q k 0)))
      else 0)).sum = kl q (mixDict p q) := by
  have hA : ((unionKeys p q).map (fun k =>
      if 0 < pyGet q k 0 then
        pyGet q k 0 * Real.logb 2 (pyGet q k 0 / (0.5 * (pyGet p k 0 + pyGet q k 0)))
      else 0)).sum =
      ((unionKeys p q).map (fun k =>
      if 0 < pyGet q k 0 then
        pyGet q k 0 * Real.logb 2 (pyGet q k 0 / pyGet (mixDict p q) k 0)
      else 0)).sum := by
    congr 1
    refine List.map_congr_left (fun k hk => ?_)
    rw [pyGet_mixDict_of_mem hk]
  rw [hA, sum_union_eq_sum_keyList p q q _ hnq
    (fun k hk => mem_unionKeys.mpr (Or.inr hk))
    (fun k _ hnk => by rw [pyGet_eq_default_of_not_mem hnk 0]; simp)]
  unfold kl keyList
  rw [List.map_map]
  congr 1
  refine List.map_congr_left (fun kv hkv => ?_)
  have hgv : pyGet q kv.1 0 = kv.2 := pyGet_eq_of_mem_nodup hnq hkv 0
  by_cases hz : kv.2 = 0
  · simp only [Function.comp_apply, hgv, hz]
    norm_num
  · have hvpos : 0 < kv.2 := lt_of_le_of_ne (hq kv hkv) (Ne.symm hz)
    have hbv : 0 < pyGet (mixDict p q) kv.1 0 := mixDict_get_pos_right hp hq hnq hkv hz
    simp only [Function.comp_apply, hgv]
    rw [if_pos hvpos, if_neg hz, if_neg (ne_of_gt hbv)]

end CompareCorpora

theorem IsProbDist.sum_le_one {p : PyDict ℝ} (hp : IsProbDist p) :
    (p.map (fun kv => kv.2)).sum ≤ 1 := by
  rcases hp.2.2 with h | h
  · rw [h]; norm_num
  · rw [h]

/-- C1: for all probability distributions `P` and `Q` (possibly over
different key sets, including the empty mapping), `js_divergence(P, Q)` is
a finite value in `[0, 1]` bit; divergence against an empty distribution
does not blow up.  The `compare_languages.py` vectorised version agrees
with the `compare_corpora.py` version on such inputs, so the bound covers
both. -/
theorem js_divergence_mem_unit_interval (p q : PyDict ℝ)
    (hp : IsProbDist p) (hq : IsProbDist q) :
    0 ≤ CompareCorpora.js_divergence p q ∧
    CompareCorpora.js_divergence p q ≤ 1 ∧
    CompareLanguages.js_divergence p q = CompareCorpora.js_divergence p q := by
  obtain ⟨hnp, hp0, hpd⟩ := hp
  obtain ⟨hnq, hq0, hqd⟩ := hq
  have hklq_comm : CompareCorpora.kl q (CompareCorpora.mixDict p q) =
      CompareCorpora.kl q (CompareCorpora.mixDict q p) :=
    CompareCorpora.kl_congr q (fun k _ => CompareCorpora.mixDict_get_comm p q k)
  have hupper_p : CompareCorpora.kl p (CompareCorpora.mixDict p q) ≤ 1 :=
    le_trans (CompareCorpora.kl_mix_le_sum p q hp0 hq0 hnp)
      (IsProbDist.sum_le_one ⟨hnp, hp0, hpd⟩)
  have hupper_q : CompareCorpora.kl q (CompareCorpora.mixDict p q) ≤ 1 := by
    rw [hklq_comm]
    exact le_trans (CompareCorpora.kl_mix_le_sum q p hq0 hp0 hnq)
      (IsProbDist.sum_le_one ⟨hnq, hq0, hqd⟩)
  have hlower_p : 0 ≤ CompareCorpora.kl p (CompareCorpora.mixDict p q) := by
    rcases hpd with h | h
    · subst h
      simp [CompareCorpora.kl]
    · exact CompareCorpora.kl_mix_nonneg p q hnp hnq hp0 hq0 h
        (IsProbDist.sum_le_one ⟨hnq, hq0, hqd⟩)
  have hlower_q : 0 ≤ CompareCorpora.kl q (CompareCorpora.mixDict p q) := by
    rw [hklq_comm]
    rcases hqd with h | h
    · subst h
      simp [CompareCorpora.kl]
    · exact CompareCorpora.kl_mix_nonneg q p hnq hnp hq0 hp0 h
        (IsProbDist.sum_le_one ⟨hnp, hp0, hpd⟩)
  refine ⟨?_, ?_, ?_⟩
  · unfold CompareCorpora.js_divergence
    linarith
  · unfold CompareCorpora.js_divergence
    linarith
  · unfold CompareLanguages.js_divergence CompareCorpora.js_divergence
    rw [CompareCorpora.lang_mask_sum_eq_kl_left p q hp0 hq0 hnp,
      CompareCorpora.lang_mask_sum_eq_kl_right p q hp0 hq0 hnq]

/-- Witness for C1 at the concrete distributions `[("a", 0.5), ("b", 0.5)]`
and the empty distribution (empty corpus). -/
theorem js_divergence_mem_unit_interval_witness :
    0 ≤ CompareCorpora.js_divergence exampleDistP [] ∧
    CompareCorpora.js_divergence exampleDistP [] ≤ 1 ∧
    CompareLanguages.js_divergence exampleDistP [] =
      CompareCorpora.js_divergence exampleDistP [] := by
  refine js_divergence_mem_unit_interval exampleDistP [] ⟨?_, ?_, ?_⟩ ⟨?_, ?_, ?_⟩
  · simp [exampleDistP, keyList]
  · intro kv hkv
    simp only [exampleDistP, List.mem_cons, List.not_mem_nil, or_false] at hkv
    rcases hkv with h | h <;> rw [h] <;> norm_num
  · right
    simp [exampleDistP]
    norm_num
  · simp [keyList]
  · intro kv hkv
    cases hkv
  · left
    rfl

/-- C7 counterexample: the `compare_corpora.py` n-gram extraction at order
`n = 0` on the empty token sequence returns a one-element list holding the
empty tuple, not an empty result, refuting the claim for that
implementation. -/
theorem ngrams_nonpos_counterexample :
    CompareCorpora.ngrams ([] : List String) 0 = [[]] ∧
    CompareCorpora.ngrams ([] : List String) 0 ≠ [] := by
  constructor <;> decide

/-- C7 (amended): the guarded extraction of `stats.py` and
`report_metrics.py` returns an empty result for every `n ≤ 0`; for `n ≥ 1`
a sequence shorter than `n` yields zero n-grams in both implementations;
the unguarded `compare_corpora.py` extraction instead returns a nonempty
list of `len - n + 1` slice tuples whenever `n ≤ 0`. -/
theorem ngrams_edge_cases (tokens : List String) (n : ℤ) :
    (n ≤ 0 → Stats.ngrams tokens n = []) ∧
    (1 ≤ n → (tokens.length : ℤ) < n →
      Stats.ngrams tokens n = [] ∧ CompareCorpora.ngrams tokens n = []) ∧
    (n ≤ 0 →
      (CompareCorpora.ngrams tokens n).length = ((tokens.length : ℤ) - n + 1).toNat ∧
      CompareCorpora.ngrams tokens n ≠ []) := by
  refine ⟨fun h => by simp [Stats.ngrams, h], fun h1 h2 => ?_, fun h => ?_⟩
  · have hz : (((tokens.length : ℤ) - n + 1)).toNat = 0 := by omega
    constructor
    · simp [Stats.ngrams, hz]
    · simp [CompareCorpora.ngrams, hz]
  · have hlen : (CompareCorpora.ngrams tokens n).length =
        ((tokens.length : ℤ) - n + 1).toNat := by
      unfold CompareCorpora.ngrams
      rw [List.length_map, List.length_range]
    refine ⟨hlen, ?_⟩
    have hpos : 0 < ((tokens.length : ℤ) - n + 1).toNat := by omega
    intro hnil
    rw [hnil] at hlen
    simp at hlen
    omega

/-- Witness for C7 at the concrete inputs `["a", "b"]` with `n = 0` and
`["a"]` with `n = 2`. -/
theorem ngrams_edge_cases_witness :
    Stats.ngrams ["a", "b"] 0 = [] ∧
    (Stats.ngrams ["a"] 2 = [] ∧ CompareCorpora.ngrams ["a"] 2 = []) ∧
    (CompareCorpora.ngrams ["a", "b"] 0).length = 3 := by
  refine ⟨(ngrams_edge_cases ["a", "b"] 0).1 (by decide),
    (ngrams_edge_cases ["a"] 2).2.1 (by decide) (by decide), ?_⟩
  rw [((ngrams_edge_cases ["a", "b"] 0).2.2 (by decide)).1]
  decide

namespace TemporalEvolution

theorem takeWhile_dropWhile_of_append {α : Type} (p : α → Bool) (ds rest : List α)
    (c : α) (hds : ∀ x ∈ ds, p x) (hc : p c = false) :
    (ds ++ c :: rest).takeWhile p = ds ∧ (ds ++ c :: rest).dropWhile p = c :: rest := by
  induction ds with
  | nil =>
    simp [List.takeWhile, List.dropWhile, hc]
  | cons d ds2 ih =>
    have hd : p d = true := hds d (List.mem_cons_self d ds2)
    have := ih (fun x hx => hds x (List.mem_cons_of_mem d hx))
    simp [List.takeWhile, List.dropWhile, hd, this.1, this.2]

end TemporalEvolution

/-- C9: the window-segmentation order key of `extract_folio_order` is
`2 * number` for an identifier with a leading digit run followed by `r`,
`2 * number + 1` when followed by `v`, and every identifier without such
a prefix gets the documented fallback `(0, 'r')`. -/
theorem extract_folio_order_spec (folio : String) :
    (∀ ds c rest, folio.toList = ds ++ c :: rest → ds ≠ [] →
      (∀ x ∈ ds, x.isDigit) → (c = 'r' ∨ c = 'v') →
      TemporalEvolution.extract_folio_order folio =
        (2 * TemporalEvolution.decimalValue ds + (if c = 'v' then 1 else 0), c)) ∧
    ((¬ ∃ ds c rest, folio.toList = ds ++ c :: rest ∧ ds ≠ [] ∧
        (∀ x ∈ ds, x.isDigit) ∧ (c = 'r' ∨ c = 'v')) →
      TemporalEvolution.extract_folio_order folio = (0, 'r')) := by
  constructor
  · intro ds c rest heq hne hdig hc
    have hcnd : Char.isDigit c = false := by
      rcases hc with h | h <;> rw [h] <;> decide
    have hsplit := TemporalEvolution.takeWhile_dropWhile_of_append
      Char.isDigit ds rest c hdig hcnd
    unfold TemporalEvolution.extract_folio_order
    rw [heq, hsplit.1, hsplit.2]
    rcases hc with h | h
    · subst h
      rw [if_pos ⟨rfl, hne⟩]
      simp [Nat.mul_comm]
    · subst h
      have hvr : ¬ (((('v' : Char) :: rest).head? = some 'r') ∧ ds ≠ []) := by
        intro hcon
        have := hcon.1
        simp only [List.head?_cons, Option.some.injEq] at this
        cases this
      rw [if_neg hvr, if_pos ⟨rfl, hne⟩]
      simp [Nat.mul_comm]
  · intro hno
    unfold TemporalEvolution.extract_folio_order
    have hmk : ∀ (c : Char), (folio.toList.dropWhile Char.isDigit).head? = some c →
        folio.toList.takeWhile Char.isDigit ≠ [] → (c = 'r' ∨ c = 'v') → False := by
      intro c hhead hne hc
      apply hno
      rcases hd : folio.toList.dropWhile Char.isDigit with _ | ⟨c2, rest⟩
      · rw [hd] at hhead
        cases hhead
      · rw [hd] at hhead
        have hc2 : c2 = c := by
          simp only [List.head?_cons, Option.some.injEq] at hhead
          exact hhead
        subst hc2
        refine ⟨folio.toList.takeWhile Char.isDigit, c2, rest, ?_, hne, ?_, hc⟩
        · rw [← hd]
          exact (List.takeWhile_append_dropWhile _ _).symm
        · intro x hx
          exact List.mem_takeWhile_imp hx
    by_cases h1 : (folio.toList.dropWhile Char.isDigit).head? = some 'r' ∧
        folio.toList.takeWhile Char.isDigit ≠ []
    · exact (hmk 'r' h1.1 h1.2 (Or.inl rfl)).elim
    · rw [if_neg h1]
      by_cases h2 : (folio.toList.dropWhile Char.isDigit).head? = some 'v' ∧
          folio.toList.takeWhile Char.isDigit ≠ []
      · exact (hmk 'v' h2.1 h2.2 (Or.inr rfl)).elim
      · rw [if_neg h2]

/-- Witness for C9 at the concrete identifiers `"103v"` (matching, order
`207`) and `"foo"` (fallback). -/
theorem extract_folio_order_spec_witness :
    TemporalEvolution.extract_folio_order "103v" = (207, 'v') ∧
    TemporalEvolution.extract_folio_order "foo" = (0, 'r') := by
  constructor
  · have h := (extract_folio_order_spec "103v").1
      ['1', '0', '3'] 'v' [] (by decide) (by decide) (by decide) (Or.inr rfl)
    rw [h]
    decide
  · refine (extract_folio_order_spec "foo").2 ?_
    rintro ⟨ds, c, rest, heq, hne, hdig, hc⟩
    rcases ds with _ | ⟨d, ds2⟩
    · exact hne rfl
    · have hhd : "foo".toList = 'f' :: ['o', 'o'] := by decide
      rw [hhd] at heq
      have hd : d = 'f' := (List.cons_eq_cons.mp heq).1.symm
      have hdd := hdig d (List.mem_cons_self d ds2)
      rw [hd] at hdd
      exact absurd hdd (by decide)

/-- C8: Shannon entropy of a frequency table (unique keys, all stored
counts at least 1) is nonnegative, is exactly `0` for the empty table, and
for a nonempty table vanishes exactly when the table has a single entry
(one distinct key). -/
theorem shannon_entropy_props (c : PyDict ℕ)
    (hnd : (keyList c).Nodup) (hpos : ∀ kv ∈ c, 1 ≤ kv.2) :
    0 ≤ Stats.shannon_entropy c ∧
    (c = [] → Stats.shannon_entropy c = 0) ∧
    (c ≠ [] → (Stats.shannon_entropy c = 0 ↔ c.length = 1)) := by
  have hterm_nonneg : ∀ kv ∈ c, 0 < (c.map (fun kv => kv.2)).sum →
      0 ≤ -(((kv.2 : ℝ) / (((c.map (fun kv => kv.2)).sum : ℕ) : ℝ)) *
        Real.logb 2 ((kv.2 : ℝ) / (((c.map (fun kv => kv.2)).sum : ℕ) : ℝ))) := by
    intro kv hkv hT
    have hv1 : 1 ≤ kv.2 := hpos kv hkv
    have hvle : kv.2 ≤ (c.map (fun kv => kv.2)).sum :=
      List.single_le_sum (fun x _ => Nat.zero_le x) _ (List.mem_map.mpr ⟨kv, hkv, rfl⟩)
    have hTpos : (0:ℝ) < (((c.map (fun kv => kv.2)).sum : ℕ) : ℝ) := Nat.cast_pos.mpr hT
    have hp_pos : 0 < (kv.2 : ℝ) / (((c.map (fun kv => kv.2)).sum : ℕ) : ℝ) :=
      div_pos (Nat.cast_pos.mpr (by omega)) hTpos
    have hp_le1 : (kv.2 : ℝ) / (((c.map (fun kv => kv.2)).sum : ℕ) : ℝ) ≤ 1 :=
      (div_le_one hTpos).mpr (Nat.cast_le.mpr hvle)
    have hlog : Real.logb 2 ((kv.2 : ℝ) / (((c.map (fun kv => kv.2)).sum : ℕ) : ℝ)) ≤ 0 :=
      Real.logb_nonpos (by norm_num) (le_of_lt hp_pos) hp_le1
    have hmul : ((kv.2 : ℝ) / (((c.map (fun kv => kv.2)).sum : ℕ) : ℝ)) *
        Real.logb 2 ((kv.2 : ℝ) / (((c.map (fun kv => kv.2)).sum : ℕ) : ℝ)) ≤ 0 :=
      mul_nonpos_iff.mpr (Or.inl ⟨le_of_lt hp_pos, hlog⟩)
    linarith
  refine ⟨?_, ?_, ?_⟩
  · unfold Stats.shannon_entropy
    by_cases hT0 : (c.map (fun kv => kv.2)).sum = 0
    · rw [if_pos hT0]
    · rw [if_neg hT0]
      refine List.sum_nonneg (fun x hx => ?_)
      rcases List.mem_map.mp hx with ⟨kv, hkv, rfl⟩
      exact hterm_nonneg kv hkv (Nat.pos_of_ne_zero hT0)
  · intro he
    subst he
    simp [Stats.shannon_entropy]
  · intro hne
    have hTpos : 0 < (c.map (fun kv => kv.2)).sum := by
      rcases c with _ | ⟨a, t⟩
      · exact absurd rfl hne
      · have ha : 1 ≤ a.2 := hpos a (List.mem_cons_self a t)
        simp only [List.map_cons, List.sum_cons]
        omega
    unfold Stats.shannon_entropy
    rw [if_neg (Nat.pos_iff_ne_zero.mp hTpos)]
    constructor
    · intro hH0
      by_contra hlen
      rcases hc : c with _ | ⟨a, t⟩
      · exact hne hc
      rcases ht : t with _ | ⟨b, t2⟩
      · rw [hc, ht] at hlen
        exact hlen rfl
      · subst hc
        subst ht
        have ha1 : 1 ≤ a.2 := hpos a (List.mem_cons_self a _)
        have hb1 : 1 ≤ b.2 := hpos b (List.mem_cons_of_mem a (List.mem_cons_self b t2))
        have hvlt : a.2 < ((a :: b :: t2).map (fun kv => kv.2)).sum := by
          simp only [List.map_cons, List.sum_cons]
          omega
        have hTposR : (0:ℝ) < ((((a :: b :: t2).map (fun kv => kv.2)).sum : ℕ) : ℝ) :=
          Nat.cast_pos.mpr hTpos
        have hp_pos : 0 < (a.2 : ℝ) / ((((a :: b :: t2).map (fun kv => kv.2)).sum : ℕ) : ℝ) :=
          div_pos (Nat.cast_pos.mpr (by omega)) hTposR
        have hp_lt1 : (a.2 : ℝ) / ((((a :: b :: t2).map (fun kv => kv.2)).sum : ℕ) : ℝ) < 1 :=
          (div_lt_one hTposR).mpr (Nat.cast_lt.mpr hvlt)
        have hlogneg : Real.logb 2
            ((a.2 : ℝ) / ((((a :: b :: t2).map (fun kv => kv.2)).sum : ℕ) : ℝ)) < 0 :=
          Real.logb_neg (by norm_num) hp_pos hp_lt1
        have hterma : 0 < -(((a.2 : ℝ) / ((((a :: b :: t2).map (fun kv => kv.2)).sum : ℕ) : ℝ)) *
            Real.logb 2 ((a.2 : ℝ) / ((((a :: b :: t2).map (fun kv => kv.2)).sum : ℕ) : ℝ))) := by
          have := mul_neg_of_pos_of_neg hp_pos hlogneg
          linarith
        have htail : 0 ≤ ((b :: t2).map (fun kv =>
            -(((kv.2 : ℝ) / ((((a :: b :: t2).map (fun kv => kv.2)).sum : ℕ) : ℝ)) *
              Real.logb 2 ((kv.2 : ℝ) /
                ((((a :: b :: t2).map (fun kv => kv.2)).sum : ℕ) : ℝ))))).sum := by
          refine List.sum_nonneg (fun x hx => ?_)
          rcases List.mem_map.mp hx with ⟨kv, hkv, rfl⟩
          exact hterm_nonneg kv (List.mem_cons_of_mem a hkv) hTpos
        rw [List.map_cons, List.sum_cons] at hH0
        linarith
    · intro hlen1
      rcases hc : c with _ | ⟨a, t⟩
      · exact absurd hc hne
      · subst hc
        have ht : t = [] := by
          rcases t with _ | ⟨b, t2⟩
          · rfl
          · simp at hlen1
        subst ht
        have ha1 : 1 ≤ a.2 := hpos a (List.mem_cons_self a [])
        have hane : ((a.2 : ℕ) : ℝ) ≠ 0 := Nat.cast_ne_zero.mpr (by omega)
        simp only [List.map_cons, List.map_nil, List.sum_cons, List.sum_nil, add_zero]
        rw [div_self hane, Real.logb_one]
        simp

/-- Witness for C8 at the concrete unigram table of the spec example,
`[("daiin", 2), ("qokedy", 1)]`. -/
theorem shannon_entropy_props_witness :
    0 ≤ Stats.shannon_entropy [("daiin", 2), ("qokedy", 1)] ∧
    ([("daiin", 2), ("qokedy", 1)] ≠ ([] : PyDict ℕ) →
      (Stats.shannon_entropy [("daiin", 2), ("qokedy", 1)] = 0 ↔
        ([("daiin", 2), ("qokedy", 1)] : PyDict ℕ).length = 1)) := by
  have h := shannon_entropy_props [("daiin", 2), ("qokedy", 1)]
    (by decide) (by decide)
  exact ⟨h.1, h.2.2⟩

/-- C4 counterexample: `zipf_slope` on a table with three entries but only
one distinct frequency value returns the numeric slope `0.0`, not the
undefined result the claim requires for fewer than 3 distinct frequency
values. -/
theorem zipf_slope_distinct_counterexample :
    ReportMetrics.distinctFreqCount zipfExampleTable = 1 ∧
    ReportMetrics.zipf_slope zipfExampleTable = some 0 := by
  refine ⟨by decide, ?_⟩
  have hfreqs : ReportMetrics.sortedFreqs zipfExampleTable = [1, 1, 1] := by
    unfold ReportMetrics.sortedFreqs zipfExampleTable
    rw [List.mergeSort_of_sorted (by decide)]
    decide
  unfold ReportMetrics.zipf_slope
  rw [hfreqs]
  norm_num
  have hrange : List.range 3 = [0, 1, 2] := by decide
  rw [hrange]
  unfold ReportMetrics.polyfit_slope
  simp [Real.logb_one]

/-- C4 (amended): `zipf_slope` returns the undefined result exactly when
the frequency table has fewer than 3 entries (3 stored frequency values,
counted with multiplicity), not fewer than 3 distinct frequency values;
otherwise it returns the fitted log-log slope. -/
theorem zipf_slope_none_iff (c : PyDict ℕ) :
    ReportMetrics.zipf_slope c = none ↔ c.length < 3 := by
  unfold ReportMetrics.zipf_slope
  have hlen : (ReportMetrics.sortedFreqs c).length = c.length := by
    unfold ReportMetrics.sortedFreqs
    rw [List.length_mergeSort, List.length_map]
  rw [hlen]
  by_cases h : c.length < 3
  · rw [if_pos h]
    simp [h]
  · rw [if_neg h]
    simp [h]

theorem read_lines_skip_malformed (input : List RawLine) :
    ReportMetrics.read_lines_from_jsonl input =
      ReportMetrics.read_lines_from_jsonl
        (input.filter (fun ln => ln.blank || ln.parsed.isSome)) := by
  induction input with
  | nil => rfl
  | cons ln rest ih =>
    by_cases hb : ln.blank
    · simp [ReportMetrics.read_lines_from_jsonl, List.filter_cons, hb] at ih ⊢
      exact ih
    · cases hp : ln.parsed with
      | none =>
        simp [ReportMetrics.read_lines_from_jsonl, List.filter_cons, hb, hp] at ih ⊢
        exact ih
      | some o =>
        have hkeep : (ln.blank || ln.parsed.isSome) = true := by
          rw [hp]
          simp
        simp only [ReportMetrics.read_lines_from_jsonl] at ih ⊢
        rw [List.filter_cons, if_pos hkeep, List.filterMap_cons, List.filterMap_cons, ih]

theorem read_voynich_error_of_malformed (input : List RawLine)
    (h : ∃ ln ∈ input, ln.blank = false ∧ ln.parsed = none) :
    CompareCorpora.read_voynich_lines input = .error () := by
  induction input with
  | nil =>
    rcases h with ⟨l, hl, _⟩
    cases hl
  | cons ln rest ih =>
    rcases h with ⟨l, hl, hbf, hpn⟩
    rcases List.mem_cons.mp hl with rfl | hmem
    · simp [CompareCorpora.read_voynich_lines, hbf, hpn]
    · by_cases hb : ln.blank
      · simp only [CompareCorpora.read_voynich_lines, hb, if_true]
        exact ih ⟨l, hmem, hbf, hpn⟩
      · cases hp : ln.parsed with
        | none => simp [CompareCorpora.read_voynich_lines, hb, hp]
        | some o =>
          simp only [CompareCorpora.read_voynich_lines, hb, if_false, hp]
          rw [ih ⟨l, hmem, hbf, hpn⟩]
          rfl

/-- C6 counterexample: a malformed (nonblank, unparseable) line makes
`read_voynich_lines` in `compare_corpora.py` raise and abort the read,
refuting the claim that every reader skips malformed lines silently; the
`report_metrics.py` reader does skip it. -/
theorem read_voynich_lines_counterexample :
    CompareCorpora.read_voynich_lines [malformedLine] = .error () ∧
    ReportMetrics.read_lines_from_jsonl [malformedLine] = [] := by
  constructor <;> rfl

/-- C6 (amended): `read_lines_from_jsonl` in `report_metrics.py` skips
malformed lines silently — its output is unchanged when the malformed
lines are removed from the stream — while `read_voynich_lines` in
`compare_corpora.py` raises on any stream containing a malformed nonblank
line, aborting the run. -/
theorem malformed_line_handling (input : List RawLine) :
    ReportMetrics.read_lines_from_jsonl input =
      ReportMetrics.read_lines_from_jsonl
        (input.filter (fun ln => ln.blank || ln.parsed.isSome)) ∧
    ((∃ ln ∈ input, ln.blank = false ∧ ln.parsed = none) →
      CompareCorpora.read_voynich_lines input = .error ()) :=
  ⟨read_lines_skip_malformed input, read_voynich_error_of_malformed input⟩

/-- Witness for C6 on a concrete stream holding a good record, a
malformed line and a blank line. -/
theorem malformed_line_handling_witness :
    ReportMetrics.read_lines_from_jsonl
        [⟨false, some ⟨some "daiin qokedy", none⟩⟩, malformedLine, ⟨true, none⟩] =
      ReportMetrics.read_lines_from_jsonl
        (List.filter (fun ln => ln.blank || ln.parsed.isSome)
          [⟨false, some ⟨some "daiin qokedy", none⟩⟩, malformedLine, ⟨true, none⟩]) ∧
    CompareCorpora.read_voynich_lines
        [⟨false, some ⟨some "daiin qokedy", none⟩⟩, malformedLine, ⟨true, none⟩] =
      .error () := by
  refine ⟨(malformed_line_handling _).1, (malformed_line_handling _).2 ?_⟩
  exact ⟨malformedLine, List.mem_cons_of_mem _ (List.mem_cons_self _ _), rfl, rfl⟩

namespace TemporalEvolution

theorem length_filterMap_of_isSome {α β : Type} (l : List α) (f : α → Option β)
    (h : ∀ a ∈ l, (f a).isSome) : (l.filterMap f).length = l.length := by
  induction l with
  | nil => rfl
  | cons a t ih =>
    have ha := h a (List.mem_cons_self a t)
    rcases hf : f a with _ | b
    · rw [hf] at ha
      cases ha
    · rw [List.filterMap_cons, hf]
      simp only [List.length_cons]
      rw [ih (fun x hx => h x (List.mem_cons_of_mem a hx))]

theorem windowTokens_ne_nil {folio_stats : List FolioStat} {i w : ℕ}
    (hw : 1 ≤ w) (hi : i < folio_stats.length)
    (htok : ∀ f ∈ folio_stats, f.tokens ≠ []) :
    windowTokens folio_stats i w ≠ [] := by
  have hwin : (folio_stats.drop i).take w ≠ [] := by
    rw [Ne, List.take_eq_nil_iff]
    push_neg
    refine ⟨by omega, ?_⟩
    rw [Ne, List.drop_eq_nil_iff]
    omega
  rw [windowTokens, Ne, List.flatten_eq_nil_iff]
  intro hall
  rcases List.exists_mem_of_ne_nil _ hwin with ⟨f, hf⟩
  have hfmem : f ∈ folio_stats := List.mem_of_mem_drop (List.mem_of_mem_take hf)
  exact htok f hfmem (hall f.tokens (List.mem_map.mpr ⟨f, hf, rfl⟩))

theorem detect_vocabulary_shifts_length (folio_stats : List FolioStat) (w : ℕ)
    (hw : 1 ≤ w) (htok : ∀ f ∈ folio_stats, f.tokens ≠ []) :
    (detect_vocabulary_shifts folio_stats w).length = folio_stats.length - w := by
  unfold detect_vocabulary_shifts
  rw [length_filterMap_of_isSome, List.length_range]
  intro i hi
  rw [List.mem_range] at hi
  have h1 : windowTokens folio_stats i w ≠ [] :=
    windowTokens_ne_nil hw (by omega) htok
  have h2 : windowTokens folio_stats (i + w) w ≠ [] :=
    windowTokens_ne_nil hw (by omega) htok
  rw [if_neg (not_or.mpr ⟨h1, h2⟩)]
  rfl

end TemporalEvolution

/-- C3 counterexample: the windowed analysis over the four folios
`["1r", "1v", "2r", "2v"]` with window size 1 produces 3 adjacent-window
comparisons, not the 2 (and not the `N - 2w + 1`) the claim states. -/
theorem detect_vocabulary_shifts_example_count :
    (TemporalEvolution.detect_vocabulary_shifts exampleFolios 1).length = 3 ∧
    (TemporalEvolution.detect_vocabulary_shifts exampleFolios 1).length ≠ 2 := by
  have h := TemporalEvolution.detect_vocabulary_shifts_length exampleFolios 1
    (by decide) (by decide)
  rw [h]
  exact ⟨rfl, by decide⟩

/-- C3 (amended): for every ordered folio list whose units all carry at
least one token and every window size `w ≥ 1`, the analysis yields
exactly `N - w` adjacent-window comparisons (`N` folios), comparing
`[i, i+w)` with the end-truncated `[i+w, min(i+2w, N))`; in particular
the four-folio example with `w = 1` gives 3 comparisons. -/
theorem detect_vocabulary_shifts_count (folio_stats : List FolioStat) (w : ℕ)
    (hw : 1 ≤ w) (htok : ∀ f ∈ folio_stats, f.tokens ≠ []) :
    (TemporalEvolution.detect_vocabulary_shifts folio_stats w).length =
      folio_stats.length - w :=
  TemporalEvolution.detect_vocabulary_shifts_length folio_stats w hw htok

/-- Witness for C3 at the four-folio example with window size 2. -/
theorem detect_vocabulary_shifts_count_witness :
    (TemporalEvolution.detect_vocabulary_shifts exampleFolios 2).length =
      exampleFolios.length - 2 :=
  detect_vocabulary_shifts_count exampleFolios 2 (by decide) (by decide)

/-- C5: for every comparison run over one manuscript distribution pair and
a collection of named reference corpora, the emitted ranking is a
permutation of the per-corpus Divergence Results that is sorted in
ascending order of unigram JSD. -/
theorem compare_ranked_sorted (p_v_uni p_v_bi : PyDict ℝ)
    (corpora : List (String × List String)) :
    (CompareCorpora.compare_ranked p_v_uni p_v_bi corpora).Perm
      (CompareCorpora.compare_results p_v_uni p_v_bi corpora) ∧
    (CompareCorpora.compare_ranked p_v_uni p_v_bi corpora).Pairwise
      (fun a b => a.jsd_unigram ≤ b.jsd_unigram) := by
  constructor
  · exact List.mergeSort_perm _ _
  · unfold CompareCorpora.compare_ranked CompareCorpora.rank_results
    refine List.Pairwise.imp (fun hab => of_decide_eq_true hab)
      (List.sorted_mergeSort ?_ ?_ (CompareCorpora.compare_results p_v_uni p_v_bi corpora))
    · intro a b c hab hbc
      rw [decide_eq_true_eq] at hab hbc ⊢
      exact le_trans hab hbc
    · intro a b
      rw [Bool.or_eq_true, decide_eq_true_eq, decide_eq_true_eq]
      exact le_total _ _
